import Mathlib

/-
Verification of the concurrency core of the personal-website server:
the WebSocket broadcast hub (websocket.go), the counter write handlers
(counter.go), and the admission limiter middleware (getIPAddress,
getLimiter, rateLimitMiddleware).

The Go code is embedded shallowly:

* The hub loop (Hub.Run) processes one request at a time, so it is
  embedded as a step function over an explicit state.  Connections are
  an abstract identifier type; the message stream actually written to a
  connection is recorded as a trace.  The write made directly by
  wsHandler (the on-connect snapshot) is a separate event, since it is
  performed by the handler goroutine and is serialized with the hub
  writes only at the connection itself; an event list therefore
  represents one interleaving of the hub loop with the handler writes.
* The HTTP handlers are pure functions from the outcomes of the
  external counter-store calls to the response status plus the list of
  updates submitted to the hub.
* The limiter map is an association list keyed by an abstract address
  type (the source keys by the client IP string); the iteration order
  of a Go map range is unspecified, so the eviction sweep takes the
  order as an explicit parameter.
-/

namespace LastPersonal

/-- CounterUpdate from websocket.go: the JSON payload with the primary
count and the auxiliary total-clicks value. -/
structure CounterUpdate where
  count : Int
  totalClicks : Int
deriving DecidableEq

/-- A message written to one connection, tagged with its provenance:
either the on-connect snapshot written by wsHandler or a hub broadcast
delivery. -/
inductive Msg
  | snapshot (u : CounterUpdate)
  | bcast (u : CounterUpdate)
deriving DecidableEq

/-- State of the hub together with the per-connection observables:
the registry (clients map of Hub), the trace of messages successfully
written to each connection, and the log of connections that had Close
called on them. -/
structure HubState (α : Type) where
  clients : List α
  traces : α → List Msg
  closed : List α

/-- One request reaching the hub loop of Hub.Run, plus the snapshot
write that wsHandler performs on its own goroutine right after
registration. -/
inductive HubEvent (α : Type)
  | register (c : α)
  | unregister (c : α)
  | broadcast (u : CounterUpdate) (fails : α → Bool)
  | snapshotWrite (c : α) (u : CounterUpdate)

variable {α : Type} [DecidableEq α]

/-- The broadcast case of Hub.Run (websocket.go lines 63-73): iterate
over the registry; a successful WriteJSON appends the update to the
trace of that connection; a failed write closes the connection and
deletes it from the registry.  Returns the remaining registry, the
updated traces and the connections closed during the pass. -/
def bcastLoop (u : CounterUpdate) (fails : α → Bool) :
    List α → (α → List Msg) → List α × (α → List Msg) × List α
  | [], tr => ([], tr, [])
  | c :: rest, tr =>
    if fails c then
      let r := bcastLoop u fails rest tr
      (r.1, r.2.1, c :: r.2.2)
    else
      let r := bcastLoop u fails rest
        (fun d => if d = c then tr d ++ [Msg.bcast u] else tr d)
      (c :: r.1, r.2.1, r.2.2)

/-- One iteration of the select loop of Hub.Run, plus the snapshotWrite
event of wsHandler.  register sets the clients map entry (insertion if
absent); unregister deletes the connection and closes it when present;
broadcast runs the delivery loop. -/
def hubStep (s : HubState α) : HubEvent α → HubState α
  | HubEvent.register c =>
    if c ∈ s.clients then s else { s with clients := s.clients ++ [c] }
  | HubEvent.unregister c =>
    if c ∈ s.clients then
      { s with clients := s.clients.filter (fun d => decide (d ≠ c)),
               closed := s.closed ++ [c] }
    else s
  | HubEvent.broadcast u fails =>
    let r := bcastLoop u fails s.clients s.traces
    { clients := r.1, traces := r.2.1, closed := s.closed ++ r.2.2 }
  | HubEvent.snapshotWrite c u =>
    { s with traces := fun d => if d = c then s.traces d ++ [Msg.snapshot u] else s.traces d }

/-- NewHub: empty registry, no messages written, nothing closed. -/
def initialHub : HubState α := ⟨[], fun _ => [], []⟩

/-- Run the hub from a given state over a sequence of events. -/
def runHubFrom (s : HubState α) : List (HubEvent α) → HubState α
  | [] => s
  | e :: es => runHubFrom (hubStep s e) es

/-- Run the hub from the freshly constructed hub over a sequence of
events. -/
def runHub (es : List (HubEvent α)) : HubState α := runHubFrom initialHub es

/-- The snapshot update built by wsHandler (websocket.go lines 93-102)
from the two counter-store reads: webhook count and totalClicks count. -/
def wsSnapshot (webhookCount totalClicksCount : Int) : CounterUpdate :=
  ⟨webhookCount, totalClicksCount⟩

/-- Recognises a register event for connection c. -/
def isRegisterOf (c : α) : HubEvent α → Bool
  | HubEvent.register d => decide (d = c)
  | _ => false

/-- Recognises any broadcast event. -/
def isBroadcastEvt : HubEvent α → Bool
  | HubEvent.broadcast _ _ => true
  | _ => false

/-- Recognises a snapshot write on connection c. -/
def isSnapshotOf (c : α) : HubEvent α → Bool
  | HubEvent.snapshotWrite d _ => decide (d = c)
  | _ => false

/-! ### Counter write handlers (counter.go) -/

/-- HTTP method, as far as the handlers inspect it. -/
inductive Method
  | get
  | post
deriving DecidableEq

/-- Observable outcome of one handler call: the HTTP status written and
the updates submitted to the hub broadcast channel. -/
structure HandlerResult where
  status : Nat
  broadcasts : List CounterUpdate
deriving DecidableEq

/-- incrementHandler: primaryResult is the outcome of the atomic
FindOneAndUpdate increment on the webhook counter (new value, or none
on store error); totalClicksRead is the outcome of the FindOne read of
the totalClicks counter.  On a primary-write error the handler writes
status 500 and returns before any broadcast; on a totalClicks read
error it logs and broadcasts with total 0. -/
def incrementHandler (method : Method) (primaryResult : Option Int)
    (totalClicksRead : Option Int) : HandlerResult :=
  if method ≠ Method.post then ⟨405, []⟩
  else
    match primaryResult with
    | none => ⟨500, []⟩
    | some newCount =>
      let totalClicks := match totalClicksRead with
        | none => 0
        | some t => t
      ⟨200, [⟨newCount, totalClicks⟩]⟩

/-- decrementHandler: identical control flow to incrementHandler, with
the primary store operation being the atomic decrement. -/
def decrementHandler (method : Method) (primaryResult : Option Int)
    (totalClicksRead : Option Int) : HandlerResult :=
  if method ≠ Method.post then ⟨405, []⟩
  else
    match primaryResult with
    | none => ⟨500, []⟩
    | some newCount =>
      let totalClicks := match totalClicksRead with
        | none => 0
        | some t => t
      ⟨200, [⟨newCount, totalClicks⟩]⟩

/-! ### Client address resolution (middleware, getIPAddress) -/

/-- Index of the last occurrence of a character, mirroring the helper
last of the net package used by SplitHostPort. -/
def lastIdx (c : Char) : List Char → Option Nat
  | [] => none
  | a :: rest =>
    match lastIdx c rest with
    | some i => some (i + 1)
    | none => if a = c then some 0 else none

/-- Index of the first occurrence of a character (byteIndex of the net
package). -/
def firstIdx (c : Char) : List Char → Option Nat
  | [] => none
  | a :: rest =>
    if a = c then some 0
    else match firstIdx c rest with
      | some i => some (i + 1)
      | none => none

/-- Modelled from the source of the Go standard library function
net.SplitHostPort, which getIPAddress calls and whose body is not part
of this repository: split host:port or [host]:port on the last colon,
rejecting a colon inside an unbracketed host, a missing port, and stray
brackets.  Every error return of the Go function is none here; on
success the pair (host, port) is returned. -/
def splitHostPort (s : List Char) : Option (List Char × List Char) :=
  match lastIdx ':' s with
  | none => none
  | some i =>
    if s.head? = some '[' then
      match firstIdx ']' s with
      | none => none
      | some e =>
        if e + 1 = s.length then none
        else if e + 1 = i then
          if '[' ∈ s.drop 1 then none
          else if ']' ∈ s.drop (e + 1) then none
          else some ((s.drop 1).take (e - 1), s.drop (i + 1))
        else none
    else
      if ':' ∈ s.take i then none
      else if '[' ∈ s then none
      else if ']' ∈ s then none
      else some (s.take i, s.drop (i + 1))

/-- getIPAddress (middleware): prefer the X-Forwarded-For header value,
splitting off a port when the value parses as host:port; otherwise the
X-Real-IP header; otherwise RemoteAddr with its port split off when it
parses, the raw RemoteAddr when it does not. -/
def getIPAddress (forwarded realIP remoteAddr : List Char) : List Char :=
  if forwarded ≠ [] then
    match splitHostPort forwarded with
    | some hp => hp.1
    | none => forwarded
  else if realIP ≠ [] then realIP
  else
    match splitHostPort remoteAddr with
    | some hp => hp.1
    | none => remoteAddr

/-- The plain host:port shape: nonempty host, a single separating
colon, no brackets, no colon in the port.  This is the form of
RemoteAddr for an IPv4 TCP peer. -/
abbrev HostPortShape (h p s : List Char) : Prop :=
  s = h ++ ':' :: p ∧ h ≠ [] ∧ ':' ∉ h ∧ '[' ∉ h ∧ ']' ∉ h ∧
    ':' ∉ p ∧ '[' ∉ p ∧ ']' ∉ p

/-- The bracketed [host]:port shape with nonempty host, the form of
RemoteAddr for an IPv6 TCP peer. -/
abbrev BracketShape (x p s : List Char) : Prop :=
  s = '[' :: (x ++ ']' :: ':' :: p) ∧ x ≠ [] ∧ '[' ∉ x ∧ ']' ∉ x ∧
    ':' ∉ p ∧ '[' ∉ p ∧ ']' ∉ p

/-- The transport layer supplies a peer address: RemoteAddr has one of
the two host:port shapes produced by the TCP listener. -/
def SuppliesPeer (s : List Char) : Prop :=
  (∃ h p, HostPortShape h p s) ∨ (∃ x p, BracketShape x p s)

/-! ### Admission limiter (middleware, getLimiter / rateLimitMiddleware) -/

/-- State of one token bucket of the external golang.org/x/time/rate
dependency: limit in tokens per second, burst, current tokens, and the
time of the last state change.  Time and tokens are rationals. -/
structure RateLimiter where
  limit : ℚ
  burst : Nat
  tokens : ℚ
  last : ℚ
deriving DecidableEq

/-- Modelled from the spec: creation of a bucket, absence of a bucket
is treated as create with full burst, so a fresh bucket created at time
now holds burst tokens. -/
def NewLimiter (limit : ℚ) (burst : Nat) (now : ℚ) : RateLimiter :=
  ⟨limit, burst, (burst : ℚ), now⟩

/-- Modelled from the spec: the refill step of the token bucket, as in
the external rate dependency: tokens grow with elapsed time at the
limit rate and are capped at burst; a clock that did not advance adds
nothing. -/
def advanceTokens (lim : RateLimiter) (now : ℚ) : ℚ :=
  let elapsed := if now < lim.last then 0 else now - lim.last
  let tokens := lim.tokens + elapsed * lim.limit
  if (lim.burst : ℚ) < tokens then (lim.burst : ℚ) else tokens

/-- Modelled from the spec: the Allow call of the external rate
dependency: attempt to consume one token after refilling; on success
the bucket keeps the reduced count and the new timestamp, on failure
the bucket is left unchanged. -/
def limiterAllow (lim : RateLimiter) (now : ℚ) : Bool × RateLimiter :=
  let tokens := advanceTokens lim now
  if 1 ≤ tokens then (true, ⟨lim.limit, lim.burst, tokens - 1, now⟩)
  else (false, lim)

/-- The limiters map of the middleware, keyed by the client address.
The source keys by the IP string; the key type is kept abstract. -/
abbrev LimiterMap (α : Type) := List (α × RateLimiter)

/-- Map lookup. -/
def mapFind (ip : α) : LimiterMap α → Option RateLimiter
  | [] => none
  | kv :: rest => if kv.1 = ip then some kv.2 else mapFind ip rest

/-- The key set of the map. -/
def mapKeys (m : LimiterMap α) : List α := m.map Prod.fst

/-- Map deletion of one key. -/
def mapDelete (ip : α) (m : LimiterMap α) : LimiterMap α :=
  m.filter (fun kv => decide (kv.1 ≠ ip))

/-- Mutation of the bucket stored under a key through its pointer: if
the key is still tracked the stored bucket is replaced, otherwise the
map is unchanged (the mutated object is simply no longer reachable from
the map). -/
def mapUpdate (ip : α) (lim : RateLimiter) (m : LimiterMap α) : LimiterMap α :=
  m.map (fun kv => if kv.1 = ip then (ip, lim) else kv)

/-- The cleanup loop of getLimiter: range over the map in the given
order, delete each visited key and count it, and break once the count
exceeds 5000. -/
def sweep : List α → Nat → LimiterMap α → LimiterMap α
  | [], _, m => m
  | k :: rest, count, m =>
    let m1 := mapDelete k m
    if 5000 < count + 1 then m1 else sweep rest (count + 1) m1

/-- getLimiter (middleware lines 219-243): look up the address; when
absent create a bucket with limit requestsPerMinute/60 per second and
burst requestsPerMinute, store it, and if the map now holds more than
10000 entries run the cleanup sweep.  The iteration order of the Go map
range is unspecified and is supplied as sweepOrder.  Returns the bucket
and the updated map. -/
def getLimiter (ip : α) (requestsPerMinute : Nat) (now : ℚ)
    (sweepOrder : List α) (m : LimiterMap α) : RateLimiter × LimiterMap α :=
  match mapFind ip m with
  | some limiter => (limiter, m)
  | none =>
    let limiter := NewLimiter ((requestsPerMinute : ℚ) / 60) requestsPerMinute now
    let m1 := m ++ [(ip, limiter)]
    let m2 := if 10000 < m1.length then sweep sweepOrder 0 m1 else m1
    (limiter, m2)

/-- One admission check of rateLimitMiddleware: getLimiter followed by
the Allow call on the returned bucket; the Allow mutation reaches the
map only if the bucket is still tracked.  Returns whether the request
is admitted and the new map. -/
def allowCall (ip : α) (requestsPerMinute : Nat) (now : ℚ)
    (sweepOrder : List α) (m : LimiterMap α) : Bool × LimiterMap α :=
  let r := getLimiter ip requestsPerMinute now sweepOrder m
  let a := limiterAllow r.1 now
  (a.1, mapUpdate ip a.2 r.2)

/-- A sequence of admission checks from one address at the given times,
returning the list of admission decisions. -/
def allowSeq (ip : α) (requestsPerMinute : Nat) :
    List ℚ → LimiterMap α → List Bool
  | [], _ => []
  | t :: ts, m =>
    let r := allowCall ip requestsPerMinute t [] m
    r.1 :: allowSeq ip requestsPerMinute ts r.2

/-- A sequence of Allow calls against a single bucket at the given
times, returning the list of outcomes. -/
def bucketSeq (b : RateLimiter) : List ℚ → List Bool
  | [] => []
  | t :: ts => (limiterAllow b t).1 :: bucketSeq (limiterAllow b t).2 ts

/-- A run of admission checks from n pairwise distinct fresh addresses
(address k at step k), each sweeping in the order of the association
list. -/
def runFresh : Nat → LimiterMap Nat
  | 0 => []
  | n + 1 =>
    (allowCall n 5 0 (mapKeys (runFresh n) ++ [n]) (runFresh n)).2

/-- A finite run of admission checks in which every address is fresh
(never seen before) and each sweep order is some permutation of the
keys of the map right after the insertion, as the unspecified order of
a Go map range is.  Relates the map before the run to the map after. -/
inductive DistinctRun : LimiterMap α → LimiterMap α → Prop
  | refl (m : LimiterMap α) : DistinctRun m m
  | step (m m2 : LimiterMap α) (ip : α) (rpm : Nat) (now : ℚ) (ord : List α) :
      ip ∉ mapKeys m →
      ord.Perm (mapKeys m ++ [ip]) →
      DistinctRun (allowCall ip rpm now ord m).2 m2 →
      DistinctRun m m2

/-! ### Critical sections of one admission check (rateLimitMiddleware) -/

/-- The three steps of an admission check named in the spec. -/
inductive LimStep
  | lookupOrCreate
  | evictSweep
  | consume
deriving DecidableEq

/-- The mutex-protected sections of one admission check as the code
executes them: getLimiter takes the map mutex around lookup-or-create
and the eviction sweep and releases it on return; the Allow call then
runs under the internal lock of the bucket, outside the map mutex. -/
def admissionSections : List (List LimStep) :=
  [[LimStep.lookupOrCreate, LimStep.evictSweep], [LimStep.consume]]

/-- The sections of one admission check tagged with which of two
concurrent checks executes them. -/
def taggedSections (t : Bool) : List (Bool × List LimStep) :=
  admissionSections.map (fun sec => (t, sec))

/-- zs is an interleaving of xs and ys preserving the order of each:
critical sections are atomic, so an interleaving of two concurrent
admission checks is a merge of their section lists. -/
inductive Merge : List (Bool × List LimStep) → List (Bool × List LimStep) →
    List (Bool × List LimStep) → Prop
  | nil : Merge [] [] []
  | left (a : Bool × List LimStep) (xs ys zs : List (Bool × List LimStep)) :
      Merge xs ys zs → Merge (a :: xs) ys (a :: zs)
  | right (b : Bool × List LimStep) (xs ys zs : List (Bool × List LimStep)) :
      Merge xs ys zs → Merge xs (b :: ys) (b :: zs)

/-- Whether the true-tagged entries form one contiguous block. -/
def contiguousTrue (bs : List Bool) : Bool :=
  ((bs.dropWhile (fun b => !b)).dropWhile (fun b => b)).all (fun b => !b)

/-- Flatten a section interleaving into the sequence of tagged steps. -/
def flatSteps (zs : List (Bool × List LimStep)) : List (Bool × LimStep) :=
  zs.flatMap (fun ts => ts.2.map (fun st => (ts.1, st)))

/-- Checks that in a step sequence every lookupOrCreate is immediately
followed by the evictSweep of the same check: the two steps share one
critical section and cannot be separated. -/
def lookupEvictAdjacent : List (Bool × LimStep) → Bool
  | [] => true
  | (t, LimStep.lookupOrCreate) :: rest =>
    match rest with
    | (t2, LimStep.evictSweep) :: rest2 => decide (t = t2) && lookupEvictAdjacent rest2
    | _ => false
  | _ :: rest => lookupEvictAdjacent rest

/-! ### Hub lemmas -/

theorem bcastLoop_clients (u : CounterUpdate) (f : α → Bool) (cs : List α)
    (tr : α → List Msg) :
    (bcastLoop u f cs tr).1 = cs.filter (fun c => !f c) := by
  induction cs generalizing tr with
  | nil => simp [bcastLoop]
  | cons c rest ih =>
    by_cases hc : f c = true
    · simp [bcastLoop, hc, ih]
    · simp only [Bool.not_eq_true] at hc
      simp [bcastLoop, hc, ih]

theorem bcastLoop_closed (u : CounterUpdate) (f : α → Bool) (cs : List α)
    (tr : α → List Msg) :
    (bcastLoop u f cs tr).2.2 = cs.filter f := by
  induction cs generalizing tr with
  | nil => simp [bcastLoop]
  | cons c rest ih =>
    by_cases hc : f c = true
    · simp [bcastLoop, hc, ih]
    · simp only [Bool.not_eq_true] at hc
      simp [bcastLoop, hc, ih]

theorem bcastLoop_traces_notmem (u : CounterUpdate) (f : α → Bool) (cs : List α)
    (tr : α → List Msg) (c : α) (hc : c ∉ cs) :
    (bcastLoop u f cs tr).2.1 c = tr c := by
  induction cs generalizing tr with
  | nil => simp [bcastLoop]
  | cons d rest ih =>
    have hdc : c ≠ d := fun h => hc (by simp [h])
    have hrest : c ∉ rest := fun h => hc (List.mem_cons_of_mem _ h)
    by_cases hd : f d = true
    · simp [bcastLoop, hd, ih _ hrest]
    · simp only [Bool.not_eq_true] at hd
      simp [bcastLoop, hd, ih _ hrest, hdc]

theorem bcastLoop_traces_fail (u : CounterUpdate) (f : α → Bool) (cs : List α)
    (tr : α → List Msg) (c : α) (hf : f c = true) :
    (bcastLoop u f cs tr).2.1 c = tr c := by
  induction cs generalizing tr with
  | nil => simp [bcastLoop]
  | cons d rest ih =>
    by_cases hd : f d = true
    · simp [bcastLoop, hd, ih]
    · simp only [Bool.not_eq_true] at hd
      have hdc : c ≠ d := fun h => by rw [h] at hf; rw [hf] at hd; cases hd
      simp [bcastLoop, hd, ih, hdc]

theorem bcastLoop_traces_ok (u : CounterUpdate) (f : α → Bool) (cs : List α)
    (tr : α → List Msg) (c : α) (hnd : cs.Nodup) (hc : c ∈ cs) (hf : f c = false) :
    (bcastLoop u f cs tr).2.1 c = tr c ++ [Msg.bcast u] := by
  induction cs generalizing tr with
  | nil => cases hc
  | cons d rest ih =>
    rcases List.nodup_cons.mp hnd with ⟨hdrest, hndrest⟩
    rcases List.mem_cons.mp hc with hcd | hcrest
    · subst hcd
      simp [bcastLoop, hf]
      rw [bcastLoop_traces_notmem u f rest _ c hdrest]
      simp
    · by_cases hd : f d = true
      · simp [bcastLoop, hd, ih _ hndrest hcrest]
      · simp only [Bool.not_eq_true] at hd
        have hdc : c ≠ d := fun h => hdrest (h ▸ hcrest)
        simp [bcastLoop, hd, ih _ hndrest hcrest, hdc]

theorem bcastLoop_traces_append (u : CounterUpdate) (f : α → Bool) (cs : List α)
    (tr : α → List Msg) (c : α) :
    ∃ rest, (bcastLoop u f cs tr).2.1 c = tr c ++ rest ∧
      ∀ m ∈ rest, ∃ v, m = Msg.bcast v := by
  induction cs generalizing tr with
  | nil => exact ⟨[], by simp [bcastLoop]⟩
  | cons d rest ih =>
    by_cases hd : f d = true
    · simpa [bcastLoop, hd] using ih tr
    · simp only [Bool.not_eq_true] at hd
      rcases ih (fun e => if e = d then tr e ++ [Msg.bcast u] else tr e) with ⟨r, hr, hall⟩
      by_cases hcd : c = d
      · subst hcd
        refine ⟨Msg.bcast u :: r, ?_, ?_⟩
        · simp only [bcastLoop, hd, Bool.false_eq_true, if_false]
          rw [hr]
          simp
        · intro m hm
          rcases List.mem_cons.mp hm with h | h
          · exact ⟨u, h⟩
          · exact hall m h
      · refine ⟨r, ?_, hall⟩
        simp only [bcastLoop, hd, Bool.false_eq_true, if_false]
        rw [hr]
        simp [hcd]

theorem hubStep_nodup (s : HubState α) (e : HubEvent α)
    (h : s.clients.Nodup) : (hubStep s e).clients.Nodup := by
  cases e with
  | register c =>
    by_cases hc : c ∈ s.clients
    · simpa [hubStep, hc] using h
    · have : (s.clients ++ [c]).Nodup := by
        rw [List.nodup_append]
        refine ⟨h, List.nodup_singleton c, ?_⟩
        simp only [List.Disjoint, List.mem_singleton]
        exact fun a ha hac => hc (hac ▸ ha)
      simpa [hubStep, hc] using this
  | unregister c =>
    by_cases hc : c ∈ s.clients
    · simpa [hubStep, hc] using h.filter _
    · simpa [hubStep, hc] using h
  | broadcast u f =>
    simpa [hubStep, bcastLoop_clients] using h.filter _
  | snapshotWrite c u => simpa [hubStep] using h

theorem hubStep_notin (s : HubState α) (e : HubEvent α) (c : α)
    (hc : c ∉ s.clients) (hreg : isRegisterOf c e = false) :
    c ∉ (hubStep s e).clients := by
  cases e with
  | register d =>
    have hdc : ¬(d = c) := by simpa [isRegisterOf] using hreg
    by_cases hd : d ∈ s.clients
    · simpa [hubStep, hd] using hc
    · simp only [hubStep, hd, if_false, List.mem_append, List.mem_singleton]
      push_neg
      exact ⟨hc, fun h => hdc h.symm⟩
  | unregister d =>
    by_cases hd : d ∈ s.clients
    · simp only [hubStep, hd, if_pos]
      intro h
      exact hc (List.mem_of_mem_filter h)
    · simpa [hubStep, hd] using hc
  | broadcast u f =>
    simp only [hubStep, bcastLoop_clients]
    intro h
    exact hc (List.mem_of_mem_filter h)
  | snapshotWrite d u => simpa [hubStep] using hc

theorem runHubFrom_append (s : HubState α) (es1 es2 : List (HubEvent α)) :
    runHubFrom s (es1 ++ es2) = runHubFrom (runHubFrom s es1) es2 := by
  induction es1 generalizing s with
  | nil => rfl
  | cons e es ih => simp [runHubFrom, ih]

theorem runHubFrom_notin (s : HubState α) (es : List (HubEvent α)) (c : α)
    (hc : c ∉ s.clients) (hreg : ∀ e ∈ es, isRegisterOf c e = false) :
    c ∉ (runHubFrom s es).clients := by
  induction es generalizing s with
  | nil => exact hc
  | cons e es ih =>
    exact ih _ (hubStep_notin s e c hc (hreg e (by simp)))
      (fun e2 h2 => hreg e2 (by simp [h2]))

theorem runHubFrom_nodup (s : HubState α) (es : List (HubEvent α))
    (h : s.clients.Nodup) : (runHubFrom s es).clients.Nodup := by
  induction es generalizing s with
  | nil => exact h
  | cons e es ih => exact ih _ (hubStep_nodup s e h)

theorem hubStep_unregister_notin (s : HubState α) (c : α) :
    c ∉ (hubStep s (HubEvent.unregister c)).clients := by
  by_cases hc : c ∈ s.clients
  · simp [hubStep, hc, List.mem_filter]
  · simp [hubStep, hc]

theorem hubStep_broadcast_fail_notin (s : HubState α) (c : α) (u : CounterUpdate)
    (f : α → Bool) (hf : f c = true) :
    c ∉ (hubStep s (HubEvent.broadcast u f)).clients := by
  simp [hubStep, bcastLoop_clients, List.mem_filter, hf]

theorem hubStep_fresh (s : HubState α) (e : HubEvent α) (c : α)
    (hc : c ∉ s.clients) (hreg : isRegisterOf c e = false)
    (hsnap : isSnapshotOf c e = false) :
    c ∉ (hubStep s e).clients ∧ (hubStep s e).traces c = s.traces c := by
  refine ⟨hubStep_notin s e c hc hreg, ?_⟩
  cases e with
  | register d => by_cases hd : d ∈ s.clients <;> simp [hubStep, hd]
  | unregister d => by_cases hd : d ∈ s.clients <;> simp [hubStep, hd]
  | broadcast u f => simpa [hubStep] using bcastLoop_traces_notmem u f _ _ c hc
  | snapshotWrite d v =>
    have hdc : ¬(c = d) := by
      simp only [isSnapshotOf, decide_eq_false_iff_not] at hsnap
      exact fun h => hsnap h.symm
    simp [hubStep, hdc]

theorem runHubFrom_fresh (s : HubState α) (es : List (HubEvent α)) (c : α)
    (hc : c ∉ s.clients)
    (h : ∀ e ∈ es, isRegisterOf c e = false ∧ isSnapshotOf c e = false) :
    c ∉ (runHubFrom s es).clients ∧ (runHubFrom s es).traces c = s.traces c := by
  induction es generalizing s with
  | nil => exact ⟨hc, rfl⟩
  | cons e es ih =>
    have hstep := hubStep_fresh s e c hc (h e (by simp)).1 (h e (by simp)).2
    have hrec := ih (hubStep s e) hstep.1 (fun e2 h2 => h e2 (by simp [h2]))
    exact ⟨hrec.1, by rw [runHubFrom, hrec.2, hstep.2]⟩

theorem hubStep_quiet (s : HubState α) (e : HubEvent α) (c : α)
    (hbc : isBroadcastEvt e = false) (hsnap : isSnapshotOf c e = false) :
    (hubStep s e).traces c = s.traces c := by
  cases e with
  | register d => by_cases hd : d ∈ s.clients <;> simp [hubStep, hd]
  | unregister d => by_cases hd : d ∈ s.clients <;> simp [hubStep, hd]
  | broadcast u f => simp [isBroadcastEvt] at hbc
  | snapshotWrite d v =>
    have hdc : ¬(c = d) := by
      simp only [isSnapshotOf, decide_eq_false_iff_not] at hsnap
      exact fun h => hsnap h.symm
    simp [hubStep, hdc]

theorem runHubFrom_quiet (s : HubState α) (es : List (HubEvent α)) (c : α)
    (h : ∀ e ∈ es, isBroadcastEvt e = false ∧ isSnapshotOf c e = false) :
    (runHubFrom s es).traces c = s.traces c := by
  induction es generalizing s with
  | nil => rfl
  | cons e es ih =>
    rw [runHubFrom, ih _ (fun e2 h2 => h e2 (by simp [h2])),
      hubStep_quiet s e c (h e (by simp)).1 (h e (by simp)).2]

theorem hubStep_growth (s : HubState α) (e : HubEvent α) (c : α)
    (hsnap : isSnapshotOf c e = false) :
    ∃ rest, (hubStep s e).traces c = s.traces c ++ rest ∧
      ∀ m ∈ rest, ∃ v, m = Msg.bcast v := by
  cases e with
  | register d =>
    refine ⟨[], ?_, by simp⟩
    by_cases hd : d ∈ s.clients <;> simp [hubStep, hd]
  | unregister d =>
    refine ⟨[], ?_, by simp⟩
    by_cases hd : d ∈ s.clients <;> simp [hubStep, hd]
  | broadcast u f => simpa [hubStep] using bcastLoop_traces_append u f s.clients s.traces c
  | snapshotWrite d v =>
    have hdc : ¬(c = d) := by
      simp only [isSnapshotOf, decide_eq_false_iff_not] at hsnap
      exact fun h => hsnap h.symm
    exact ⟨[], by simp [hubStep, hdc], by simp⟩

theorem runHubFrom_growth (s : HubState α) (es : List (HubEvent α)) (c : α)
    (h : ∀ e ∈ es, isSnapshotOf c e = false) :
    ∃ rest, (runHubFrom s es).traces c = s.traces c ++ rest ∧
      ∀ m ∈ rest, ∃ v, m = Msg.bcast v := by
  induction es generalizing s with
  | nil => exact ⟨[], by simp [runHubFrom]⟩
  | cons e es ih =>
    rcases hubStep_growth s e c (h e (by simp)) with ⟨r1, hr1, hall1⟩
    rcases ih (hubStep s e) (fun e2 h2 => h e2 (by simp [h2])) with ⟨r2, hr2, hall2⟩
    refine ⟨r1 ++ r2, ?_, ?_⟩
    · rw [runHubFrom, hr2, hr1, List.append_assoc]
    · intro m hm
      rcases List.mem_append.mp hm with h | h
      · exact hall1 m h
      · exact hall2 m h

/-! ### Claim C1 -/

/-- C1: during one broadcast pass of Hub.Run over the current registry,
a connection whose write fails is closed and removed from the registry,
every connection registered at the start of the pass whose write does
not fail still receives the update within the pass and stays
registered, and the pass returns no error (the step function is total
and has no error output). -/
theorem C1_broadcast_isolation (s : HubState α) (u : CounterUpdate)
    (f : α → Bool) (hnd : s.clients.Nodup) :
    (∀ c ∈ s.clients, f c = true →
      c ∉ (hubStep s (HubEvent.broadcast u f)).clients ∧
      c ∈ (hubStep s (HubEvent.broadcast u f)).closed) ∧
    (∀ c ∈ s.clients, f c = false →
      c ∈ (hubStep s (HubEvent.broadcast u f)).clients ∧
      (hubStep s (HubEvent.broadcast u f)).traces c = s.traces c ++ [Msg.bcast u]) := by
  constructor
  · intro c hc hf
    refine ⟨hubStep_broadcast_fail_notin s c u f hf, ?_⟩
    simp [hubStep, bcastLoop_closed, List.mem_filter, hc, hf]
  · intro c hc hf
    constructor
    · simp [hubStep, bcastLoop_clients, List.mem_filter, hc, hf]
    · simpa [hubStep] using bcastLoop_traces_ok u f s.clients s.traces c hnd hc hf

/-- Witness for C1 at a concrete pass: registry of two connections,
the write to connection 1 fails, the write to connection 0 succeeds. -/
theorem C1_broadcast_isolation_witness :
    ((1 : Nat) ∉ (hubStep (⟨[0, 1], fun _ => [], []⟩ : HubState Nat)
        (HubEvent.broadcast ⟨3, 4⟩ (fun c => decide (c = 1)))).clients ∧
      (1 : Nat) ∈ (hubStep (⟨[0, 1], fun _ => [], []⟩ : HubState Nat)
        (HubEvent.broadcast ⟨3, 4⟩ (fun c => decide (c = 1)))).closed) ∧
    ((0 : Nat) ∈ (hubStep (⟨[0, 1], fun _ => [], []⟩ : HubState Nat)
        (HubEvent.broadcast ⟨3, 4⟩ (fun c => decide (c = 1)))).clients ∧
      (hubStep (⟨[0, 1], fun _ => [], []⟩ : HubState Nat)
        (HubEvent.broadcast ⟨3, 4⟩ (fun c => decide (c = 1)))).traces 0
        = (fun _ => ([] : List Msg)) 0 ++ [Msg.bcast ⟨3, 4⟩]) :=
  ⟨(C1_broadcast_isolation _ _ _ (by decide)).1 1 (by decide) (by decide),
   (C1_broadcast_isolation _ _ _ (by decide)).2 0 (by decide) (by decide)⟩

/-! ### Claim C2 -/

/-- C2: over any finite event sequence processed by the hub loop the
registry never holds a duplicate connection, and after an unregister of
c, or a broadcast delivery failure at c, with no later register of c,
the connection c is not in the registry. -/
theorem C2_registry_consistency (es : List (HubEvent α)) :
    (runHub es).clients.Nodup ∧
    (∀ es1 c es2, es = es1 ++ HubEvent.unregister c :: es2 →
      (∀ e ∈ es2, isRegisterOf c e = false) → c ∉ (runHub es).clients) ∧
    (∀ es1 u f c es2, es = es1 ++ HubEvent.broadcast u f :: es2 → f c = true →
      (∀ e ∈ es2, isRegisterOf c e = false) → c ∉ (runHub es).clients) := by
  refine ⟨runHubFrom_nodup _ _ (by simp [initialHub]), ?_, ?_⟩
  · intro es1 c es2 heq hreg
    subst heq
    rw [runHub, runHubFrom_append]
    show c ∉ (runHubFrom (hubStep (runHubFrom initialHub es1)
      (HubEvent.unregister c)) es2).clients
    exact runHubFrom_notin _ _ _ (hubStep_unregister_notin _ c) hreg
  · intro es1 u f c es2 heq hf hreg
    subst heq
    rw [runHub, runHubFrom_append]
    show c ∉ (runHubFrom (hubStep (runHubFrom initialHub es1)
      (HubEvent.broadcast u f)) es2).clients
    exact runHubFrom_notin _ _ _ (hubStep_broadcast_fail_notin _ c u f hf) hreg

/-- Witness for C2 at a concrete event sequence: register then
unregister connection 0; the registry is duplicate free and 0 is
absent afterwards. -/
theorem C2_registry_consistency_witness :
    (runHub [HubEvent.register 0, HubEvent.unregister 0] : HubState Nat).clients.Nodup ∧
    (0 : Nat) ∉ (runHub [HubEvent.register 0, HubEvent.unregister 0]).clients :=
  ⟨(C2_registry_consistency _).1,
   (C2_registry_consistency _).2.1 [HubEvent.register 0] 0 [] rfl (by simp)⟩

/-! ### Claim C6 -/

/-- C6 counterexample: the hub loop can process a broadcast after the
registration of a connection but before the snapshot write that
wsHandler performs on its own goroutine; in that interleaving the first
message on the connection is broadcast originated, not the initial
snapshot, refuting the claim that the initial message arrives before
any broadcast-originated message. -/
theorem C6_snapshot_counterexample :
    (runHub [HubEvent.register 0, HubEvent.broadcast ⟨7, 13⟩ (fun _ => false),
        HubEvent.snapshotWrite 0 (wsSnapshot 5 12)]).traces (0 : Nat)
      = [Msg.bcast ⟨7, 13⟩, Msg.snapshot (wsSnapshot 5 12)] ∧
    ((runHub [HubEvent.register 0, HubEvent.broadcast ⟨7, 13⟩ (fun _ => false),
        HubEvent.snapshotWrite 0 (wsSnapshot 5 12)]).traces (0 : Nat)).head?
      ≠ some (Msg.snapshot (wsSnapshot 5 12)) := by
  constructor
  · decide
  · decide

/-- C6 amended: a connection that registers while the store holds
count 5 and totalClicks 12 is sent exactly one initial message with
those values, and that message precedes every broadcast-originated
message on the connection, provided the hub processes no broadcast
between the registration and the snapshot write. -/
theorem C6_snapshot_amended (es1 mid es2 : List (HubEvent α)) (c : α)
    (h1 : ∀ e ∈ es1, isRegisterOf c e = false ∧ isSnapshotOf c e = false)
    (h2 : ∀ e ∈ mid, isBroadcastEvt e = false ∧ isSnapshotOf c e = false)
    (h3 : ∀ e ∈ es2, isSnapshotOf c e = false) :
    ∃ rest,
      (runHub (es1 ++ HubEvent.register c ::
        (mid ++ HubEvent.snapshotWrite c (wsSnapshot 5 12) :: es2))).traces c
        = Msg.snapshot (wsSnapshot 5 12) :: rest ∧
      ∀ m ∈ rest, ∃ v, m = Msg.bcast v := by
  rw [runHub, runHubFrom_append]
  have hfresh := runHubFrom_fresh initialHub es1 c (by simp [initialHub]) h1
  show ∃ rest, (runHubFrom (runHubFrom initialHub es1)
      (HubEvent.register c :: (mid ++ HubEvent.snapshotWrite c (wsSnapshot 5 12) :: es2))).traces c
      = Msg.snapshot (wsSnapshot 5 12) :: rest ∧ ∀ m ∈ rest, ∃ v, m = Msg.bcast v
  rw [show ∀ (s : HubState α) e es, runHubFrom s (e :: es) = runHubFrom (hubStep s e) es
      from fun _ _ _ => rfl]
  rw [runHubFrom_append]
  have hreg : (hubStep (runHubFrom initialHub es1) (HubEvent.register c)).traces c
      = (runHubFrom initialHub es1).traces c :=
    hubStep_quiet _ _ _ (by simp [isBroadcastEvt]) (by simp [isSnapshotOf])
  have hmid : (runHubFrom (hubStep (runHubFrom initialHub es1) (HubEvent.register c)) mid).traces c
      = (hubStep (runHubFrom initialHub es1) (HubEvent.register c)).traces c :=
    runHubFrom_quiet _ _ _ h2
  rw [show ∀ (s : HubState α) e es, runHubFrom s (e :: es) = runHubFrom (hubStep s e) es
      from fun _ _ _ => rfl]
  rcases runHubFrom_growth (hubStep (runHubFrom (hubStep (runHubFrom initialHub es1)
      (HubEvent.register c)) mid) (HubEvent.snapshotWrite c (wsSnapshot 5 12))) es2 c h3
    with ⟨rest, hrest, hall⟩
  refine ⟨rest, ?_, hall⟩
  rw [hrest]
  have hsnap : (hubStep (runHubFrom (hubStep (runHubFrom initialHub es1)
      (HubEvent.register c)) mid) (HubEvent.snapshotWrite c (wsSnapshot 5 12))).traces c
      = (runHubFrom (hubStep (runHubFrom initialHub es1) (HubEvent.register c)) mid).traces c
        ++ [Msg.snapshot (wsSnapshot 5 12)] := by
    simp [hubStep]
  rw [hsnap, hmid, hreg, hfresh.2]
  simp [initialHub]

/-- Witness for C6 amended at a concrete interleaving: the connection
registers, the snapshot is written at once, and a broadcast follows. -/
theorem C6_snapshot_amended_witness :
    ∃ rest,
      (runHub ([] ++ HubEvent.register 0 ::
        ([] ++ HubEvent.snapshotWrite 0 (wsSnapshot 5 12) ::
          [HubEvent.broadcast ⟨6, 13⟩ (fun _ => false)]))).traces (0 : Nat)
        = Msg.snapshot (wsSnapshot 5 12) :: rest ∧
      ∀ m ∈ rest, ∃ v, m = Msg.bcast v :=
  C6_snapshot_amended [] [] [HubEvent.broadcast ⟨6, 13⟩ (fun _ => false)] 0
    (by simp) (by simp) (by simp [isSnapshotOf])

/-! ### Claim C5 -/

/-- C5: when the primary increment-by-delta store operation fails, each
of the two handlers responds with the server error status 500 and
submits no update to the hub, whatever the totalClicks read returns. -/
theorem C5_store_failure_no_broadcast :
    ∀ totalClicksRead : Option Int,
      (incrementHandler Method.post none totalClicksRead).status = 500 ∧
      (incrementHandler Method.post none totalClicksRead).broadcasts = [] ∧
      (decrementHandler Method.post none totalClicksRead).status = 500 ∧
      (decrementHandler Method.post none totalClicksRead).broadcasts = [] :=
  fun _ => ⟨rfl, rfl, rfl, rfl⟩

/-! ### Address parsing lemmas -/

theorem lastIdx_notmem (c : Char) (s : List Char) (h : c ∉ s) :
    lastIdx c s = none := by
  induction s with
  | nil => rfl
  | cons a rest ih =>
    have ha : ¬(a = c) := fun he => h (by simp [he])
    have hr : c ∉ rest := fun hm => h (by simp [hm])
    simp [lastIdx, ih hr, ha]

theorem lastIdx_append (c : Char) (l1 l2 : List Char) (i : Nat)
    (h : lastIdx c l2 = some i) :
    lastIdx c (l1 ++ l2) = some (l1.length + i) := by
  induction l1 with
  | nil => simpa using h
  | cons a rest ih =>
    simp only [List.cons_append, lastIdx, List.append_eq, ih]
    simp only [List.length_cons]
    congr 1
    omega

theorem firstIdx_notmem (c : Char) (s : List Char) (h : c ∉ s) :
    firstIdx c s = none := by
  induction s with
  | nil => rfl
  | cons a rest ih =>
    have ha : ¬(a = c) := fun he => h (by simp [he])
    have hr : c ∉ rest := fun hm => h (by simp [hm])
    simp [firstIdx, ih hr, ha]

theorem firstIdx_append (c : Char) (l1 l2 : List Char) (j : Nat)
    (h : c ∉ l1) (h2 : firstIdx c l2 = some j) :
    firstIdx c (l1 ++ l2) = some (l1.length + j) := by
  induction l1 with
  | nil => simpa using h2
  | cons a rest ih =>
    have ha : ¬(a = c) := fun he => h (by simp [he])
    have hr : c ∉ rest := fun hm => h (by simp [hm])
    simp only [List.cons_append, firstIdx, List.append_eq, ha, if_false, ih hr,
      List.length_cons]
    congr 1
    omega

theorem splitHostPort_hostPort (h p s : List Char) (hs : HostPortShape h p s) :
    splitHostPort s = some (h, p) := by
  obtain ⟨hseq, hne, hch, hlh, hrh, hcp, hlp, hrp⟩ := hs
  subst hseq
  cases h with
  | nil => exact absurd rfl hne
  | cons a h2 =>
    have ha : ¬(a = '[') := fun he => hlh (by simp [he])
    have hlast : lastIdx ':' (a :: (h2 ++ ':' :: p)) = some (h2.length + 1) := by
      have h0 : lastIdx ':' (':' :: p) = some 0 := by
        simp [lastIdx, lastIdx_notmem ':' p hcp]
      simpa using lastIdx_append ':' (a :: h2) (':' :: p) 0 h0
    have hhead : ¬((a :: (h2 ++ ':' :: p)).head? = some '[') := by
      simp [ha]
    have htake : (a :: (h2 ++ ':' :: p)).take (h2.length + 1) = a :: h2 := by
      simp only [List.take_succ_cons]
      rw [List.take_left]
    have hcond2 : ¬(':' ∈ (a :: (h2 ++ ':' :: p)).take (h2.length + 1)) := by
      rw [htake]
      exact hch
    have hmem2 : ¬('[' ∈ a :: (h2 ++ ':' :: p)) := by
      intro hm
      rcases List.mem_cons.mp hm with he | hm2
      · exact hlh (List.mem_cons.mpr (Or.inl he))
      · rcases List.mem_append.mp hm2 with hm3 | hm4
        · exact hlh (List.mem_cons.mpr (Or.inr hm3))
        · rcases List.mem_cons.mp hm4 with he2 | hm5
          · exact absurd he2 (by decide)
          · exact hlp hm5
    have hmem3 : ¬(']' ∈ a :: (h2 ++ ':' :: p)) := by
      intro hm
      rcases List.mem_cons.mp hm with he | hm2
      · exact hrh (List.mem_cons.mpr (Or.inl he))
      · rcases List.mem_append.mp hm2 with hm3 | hm4
        · exact hrh (List.mem_cons.mpr (Or.inr hm3))
        · rcases List.mem_cons.mp hm4 with he2 | hm5
          · exact absurd he2 (by decide)
          · exact hrp hm5
    have hdrop : (a :: (h2 ++ ':' :: p)).drop (h2.length + 1 + 1) = p := by
      simp only [List.drop_succ_cons]
      simp [@List.drop_append _ h2 (':' :: p) 1]
    simp only [List.cons_append]
    simp only [splitHostPort, hlast]
    rw [if_neg hhead, if_neg hcond2, if_neg hmem2, if_neg hmem3, htake, hdrop]

theorem splitHostPort_bracket (x p s : List Char) (hs : BracketShape x p s) :
    splitHostPort s = some (x, p) := by
  obtain ⟨hseq, hne, hlx, hrx, hcp, hlp, hrp⟩ := hs
  subst hseq
  have hlast : lastIdx ':' ('[' :: (x ++ ']' :: ':' :: p)) = some (x.length + 1 + 1) := by
    have h0 : lastIdx ':' (']' :: ':' :: p) = some 1 := by
      simp [lastIdx, lastIdx_notmem ':' p hcp]
    simpa using lastIdx_append ':' ('[' :: x) (']' :: ':' :: p) 1 h0
  have hnm : ']' ∉ '[' :: x := by
    intro hm
    rcases List.mem_cons.mp hm with he | hm2
    · exact absurd he (by decide)
    · exact hrx hm2
  have hfirst : firstIdx ']' ('[' :: (x ++ ']' :: ':' :: p)) = some (x.length + 1) := by
    have h0 : firstIdx ']' (']' :: ':' :: p) = some 0 := by simp [firstIdx]
    simpa using firstIdx_append ']' ('[' :: x) (']' :: ':' :: p) 0 hnm h0
  have hlen : ¬(x.length + 1 + 1 = ('[' :: (x ++ ']' :: ':' :: p)).length) := by
    simp only [List.length_cons, List.length_append]
    omega
  have hdropmem : ¬('[' ∈ ('[' :: (x ++ ']' :: ':' :: p)).drop 1) := by
    show ¬('[' ∈ x ++ ']' :: ':' :: p)
    intro hm
    rcases List.mem_append.mp hm with hm1 | hm2
    · exact hlx hm1
    · rcases List.mem_cons.mp hm2 with he | hm3
      · exact absurd he (by decide)
      · rcases List.mem_cons.mp hm3 with he2 | hm4
        · exact absurd he2 (by decide)
        · exact hlp hm4
  have hdrop2 : ('[' :: (x ++ ']' :: ':' :: p)).drop (x.length + 1 + 1) = ':' :: p := by
    simp only [List.drop_succ_cons]
    simp [@List.drop_append _ x (']' :: ':' :: p) 1]
  have hdropmem2 : ¬(']' ∈ ('[' :: (x ++ ']' :: ':' :: p)).drop (x.length + 1 + 1)) := by
    rw [hdrop2]
    intro hm
    rcases List.mem_cons.mp hm with he | hm2
    · exact absurd he (by decide)
    · exact hrp hm2
  have htakex : (('[' :: (x ++ ']' :: ':' :: p)).drop 1).take (x.length + 1 - 1) = x := by
    show (x ++ ']' :: ':' :: p).take (x.length + 1 - 1) = x
    have h1 : x.length + 1 - 1 = x.length := by omega
    rw [h1]
    exact List.take_left x _
  have hdrop3 : ('[' :: (x ++ ']' :: ':' :: p)).drop (x.length + 1 + 1 + 1) = p := by
    simp only [List.drop_succ_cons]
    have harith : x.length + 1 + 1 = x.length + 2 := by omega
    rw [harith]
    simp [@List.drop_append _ x (']' :: ':' :: p) 2]
  simp only [splitHostPort, hlast, hfirst]
  rw [if_pos trivial, if_neg hdropmem, if_neg hdropmem2, htakex, hdrop3,
    if_pos (show ('[' :: (x ++ ']' :: ':' :: p)).head? = some '[' from rfl),
    if_neg hlen]
/-! ### Claims C9 and C7 -/

/-- C9: a non-empty X-Forwarded-For value that host-port splitting
rejects is returned unchanged by getIPAddress; in particular a
comma-separated list of addresses is returned whole, not reduced to its
first element. -/
theorem C9_forwarded_returned_verbatim :
    (∀ xff realIP remoteAddr : List Char, xff ≠ [] → splitHostPort xff = none →
      getIPAddress xff realIP remoteAddr = xff) ∧
    (getIPAddress
        ['1', '.', '2', '.', '3', '.', '4', ',', ' ', '5', '.', '6', '.', '7', '.', '8'] [] []
      = ['1', '.', '2', '.', '3', '.', '4', ',', ' ', '5', '.', '6', '.', '7', '.', '8'] ∧
    getIPAddress
        ['1', '.', '2', '.', '3', '.', '4', ',', ' ', '5', '.', '6', '.', '7', '.', '8'] [] []
      ≠ ['1', '.', '2', '.', '3', '.', '4']) := by
  refine ⟨?_, by decide, by decide⟩
  intro xff r ra hne hsplit
  simp [getIPAddress, hne, hsplit]

/-- Witness for C9 at a concrete header value with no colon. -/
theorem C9_forwarded_returned_verbatim_witness :
    (['a'] : List Char) ≠ [] ∧ splitHostPort ['a'] = none ∧
    getIPAddress ['a'] ['b'] ['c'] = ['a'] :=
  ⟨by decide, by decide,
   C9_forwarded_returned_verbatim.1 ['a'] ['b'] ['c'] (by decide) (by decide)⟩

/-- C7 counterexample: a request whose transport peer address is the
well-formed 1.2.3.4:56 but whose X-Forwarded-For header is the
non-empty value :80 makes getIPAddress return the empty string, because
host-port splitting accepts :80 with an empty host; this refutes the
clause that the result is non-empty whenever the transport layer
supplies a peer address. -/
theorem C7_resolve_identity_counterexample :
    SuppliesPeer ['1', '.', '2', '.', '3', '.', '4', ':', '5', '6'] ∧
    getIPAddress [':', '8', '0'] []
      ['1', '.', '2', '.', '3', '.', '4', ':', '5', '6'] = [] := by
  constructor
  · exact Or.inl ⟨['1', '.', '2', '.', '3', '.', '4'], ['5', '6'], by decide⟩
  · decide

/-- C7 amended: getIPAddress prefers the X-Forwarded-For value with the
port stripped when it splits as host:port or [host]:port, then the
X-Real-IP value, then the peer address with the port stripped; the
result is non-empty whenever the transport supplies a peer address,
provided any X-Forwarded-For value does not split as host:port with an
empty host. -/
theorem C7_resolve_identity_amended :
    (∀ xff realIP remoteAddr h p, HostPortShape h p xff →
      getIPAddress xff realIP remoteAddr = h) ∧
    (∀ xff realIP remoteAddr x p, BracketShape x p xff →
      getIPAddress xff realIP remoteAddr = x) ∧
    (∀ realIP remoteAddr, realIP ≠ [] → getIPAddress [] realIP remoteAddr = realIP) ∧
    (∀ remoteAddr h p, HostPortShape h p remoteAddr →
      getIPAddress [] [] remoteAddr = h) ∧
    (∀ remoteAddr x p, BracketShape x p remoteAddr →
      getIPAddress [] [] remoteAddr = x) ∧
    (∀ xff realIP remoteAddr, SuppliesPeer remoteAddr →
      (∀ h p, splitHostPort xff = some (h, p) → h ≠ []) →
      getIPAddress xff realIP remoteAddr ≠ []) := by
  have hs1 : ∀ xff realIP remoteAddr h p, HostPortShape h p xff →
      getIPAddress xff realIP remoteAddr = h := by
    intro xff r ra h p hs
    have hsplit := splitHostPort_hostPort h p xff hs
    have hne : xff ≠ [] := by
      rcases hs with ⟨rfl, _⟩
      simp
    simp [getIPAddress, hne, hsplit]
  have hs2 : ∀ xff realIP remoteAddr x p, BracketShape x p xff →
      getIPAddress xff realIP remoteAddr = x := by
    intro xff r ra x p hs
    have hsplit := splitHostPort_bracket x p xff hs
    have hne : xff ≠ [] := by
      rcases hs with ⟨rfl, _⟩
      simp
    simp [getIPAddress, hne, hsplit]
  have hs4 : ∀ remoteAddr h p, HostPortShape h p remoteAddr →
      getIPAddress [] [] remoteAddr = h := by
    intro ra h p hs
    have hsplit := splitHostPort_hostPort h p ra hs
    simp [getIPAddress, hsplit]
  have hs5 : ∀ remoteAddr x p, BracketShape x p remoteAddr →
      getIPAddress [] [] remoteAddr = x := by
    intro ra x p hs
    have hsplit := splitHostPort_bracket x p ra hs
    simp [getIPAddress, hsplit]
  refine ⟨hs1, hs2, ?_, hs4, hs5, ?_⟩
  · intro r ra hr
    simp [getIPAddress, hr]
  · intro xff r ra hsp hxff
    by_cases hne : xff = []
    · subst hne
      by_cases hr : r = []
      · subst hr
        rcases hsp with ⟨h, p, hs⟩ | ⟨x, p, hs⟩
        · rw [hs4 ra h p hs]
          exact hs.2.1
        · rw [hs5 ra x p hs]
          exact hs.2.1
      · rw [show getIPAddress [] r ra = r from by simp [getIPAddress, hr]]
        exact hr
    · cases hsx : splitHostPort xff with
      | none => simp [getIPAddress, hne, hsx]
      | some hp =>
        have hp1 : hp.1 ≠ [] := hxff hp.1 hp.2 (by rw [hsx])
        simpa [getIPAddress, hne, hsx] using hp1

/-- Witness for C7 amended: peer address 1:2 is stripped to host 1, and
the result is non-empty with no forwarding headers. -/
theorem C7_resolve_identity_amended_witness :
    HostPortShape ['1'] ['2'] ['1', ':', '2'] ∧
    getIPAddress [] [] ['1', ':', '2'] = ['1'] :=
  ⟨by decide, C7_resolve_identity_amended.2.2.2.1 ['1', ':', '2'] ['1'] ['2'] (by decide)⟩

/-! ### Claim C8 -/

theorem merge_mem (xs ys zs : List (Bool × List LimStep)) (hm : Merge xs ys zs) :
    ∀ b ∈ zs, b ∈ xs ∨ b ∈ ys := by
  induction hm with
  | nil => intro b hb; cases hb
  | left a xs ys zs h ih =>
    intro b hb
    rcases List.mem_cons.mp hb with he | hb2
    · exact Or.inl (he ▸ List.mem_cons_self a xs)
    · rcases ih b hb2 with h1 | h2
      · exact Or.inl (List.mem_cons_of_mem a h1)
      · exact Or.inr h2
  | right a xs ys zs h ih =>
    intro b hb
    rcases List.mem_cons.mp hb with he | hb2
    · exact Or.inr (he ▸ List.mem_cons_self a ys)
    · rcases ih b hb2 with h1 | h2
      · exact Or.inl h1
      · exact Or.inr (List.mem_cons_of_mem a h2)

theorem lookupEvictAdjacent_of_sections (zs : List (Bool × List LimStep))
    (h : ∀ b ∈ zs, b.2 = [LimStep.lookupOrCreate, LimStep.evictSweep] ∨
      b.2 = [LimStep.consume]) :
    lookupEvictAdjacent (flatSteps zs) = true := by
  induction zs with
  | nil => rfl
  | cons b rest ih =>
    have hrest := ih (fun b2 h2 => h b2 (by simp [h2]))
    rcases h b (by simp) with hb | hb
    · obtain ⟨t, sec⟩ := b
      simp only at hb
      subst hb
      simpa [flatSteps, lookupEvictAdjacent] using hrest
    · obtain ⟨t, sec⟩ := b
      simp only at hb
      subst hb
      simpa [flatSteps, lookupEvictAdjacent] using hrest

/-- C8 counterexample: the three steps of an admission check do not sit
in one critical section of the limiter mutex; getLimiter releases the
map mutex before Allow runs, so a valid interleaving of two concurrent
checks places the whole first check of one caller between the
lookup-or-create section and the consume section of the other,
refuting the claim that the three steps never interleave. -/
theorem C8_critical_section_counterexample :
    Merge (taggedSections true) (taggedSections false)
      [(true, [LimStep.lookupOrCreate, LimStep.evictSweep]),
       (false, [LimStep.lookupOrCreate, LimStep.evictSweep]),
       (false, [LimStep.consume]),
       (true, [LimStep.consume])] ∧
    contiguousTrue
      ([(true, [LimStep.lookupOrCreate, LimStep.evictSweep]),
        (false, [LimStep.lookupOrCreate, LimStep.evictSweep]),
        (false, [LimStep.consume]),
        (true, [LimStep.consume])].map Prod.fst) = false := by
  constructor
  · exact Merge.left _ _ _ _ (Merge.right _ _ _ _ (Merge.right _ _ _ _
      (Merge.left _ _ _ _ Merge.nil)))
  · decide

/-- C8 amended: one admission check holds the map mutex around
lookup-or-create and the eviction sweep only, and consumes the token in
a separate critical section of the bucket lock afterwards; hence in
every interleaving of two concurrent checks the lookup-or-create of a
check is immediately followed by its own eviction sweep, while the
consume step of the other check may run in between the two sections. -/
theorem C8_critical_section_amended :
    ∀ zs, Merge (taggedSections true) (taggedSections false) zs →
      lookupEvictAdjacent (flatSteps zs) = true := by
  intro zs hm
  apply lookupEvictAdjacent_of_sections
  intro b hb
  rcases merge_mem _ _ _ hm b hb with h | h <;>
  · simp only [taggedSections, admissionSections, List.mem_map, List.mem_cons,
      List.mem_singleton] at h
    rcases h with ⟨sec, hsec, hbeq⟩
    rw [← hbeq]
    rcases hsec with h1 | h1 | h1
    · simp [h1]
    · simp [h1]
    · cases h1

/-- Witness for C8 amended at the sequential interleaving of the two
checks. -/
theorem C8_critical_section_amended_witness :
    Merge (taggedSections true) (taggedSections false)
      (taggedSections true ++ taggedSections false) ∧
    lookupEvictAdjacent
      (flatSteps (taggedSections true ++ taggedSections false)) = true :=
  have hm : Merge (taggedSections true) (taggedSections false)
      (taggedSections true ++ taggedSections false) :=
    Merge.left _ _ _ _ (Merge.left _ _ _ _ (Merge.right _ _ _ _
      (Merge.right _ _ _ _ Merge.nil)))
  ⟨hm, C8_critical_section_amended _ hm⟩

/-! ### Limiter map lemmas -/

omit [DecidableEq α] in
theorem mapKeys_cons (kv : α × RateLimiter) (m : LimiterMap α) :
    mapKeys (kv :: m) = kv.1 :: mapKeys m := rfl

omit [DecidableEq α] in
theorem mapKeys_append (m1 m2 : LimiterMap α) :
    mapKeys (m1 ++ m2) = mapKeys m1 ++ mapKeys m2 := by
  simp [mapKeys]

omit [DecidableEq α] in
theorem mapKeys_length (m : LimiterMap α) : (mapKeys m).length = m.length := by
  simp [mapKeys]

omit [DecidableEq α] in
theorem mem_mapKeys_of_mem (kv : α × RateLimiter) (m : LimiterMap α)
    (h : kv ∈ m) : kv.1 ∈ mapKeys m :=
  List.mem_map_of_mem _ h

theorem mapFind_eq_none (ip : α) (m : LimiterMap α) (h : ip ∉ mapKeys m) :
    mapFind ip m = none := by
  induction m with
  | nil => rfl
  | cons kv rest ih =>
    have h1 : ¬(kv.1 = ip) := fun he => h (by rw [mapKeys_cons, he]; simp)
    have h2 : ip ∉ mapKeys rest :=
      fun hm => h (by rw [mapKeys_cons]; exact List.mem_cons_of_mem _ hm)
    simp [mapFind, h1, ih h2]

theorem mapDelete_eq_self (k : α) (m : LimiterMap α) (h : k ∉ mapKeys m) :
    mapDelete k m = m := by
  apply List.filter_eq_self.mpr
  intro kv hkv
  simp only [decide_eq_true_eq]
  exact fun he => h (he ▸ mem_mapKeys_of_mem kv m hkv)

theorem mapKeys_mapDelete (k : α) (m : LimiterMap α) :
    mapKeys (mapDelete k m) = (mapKeys m).filter (fun x => decide (x ≠ k)) := by
  induction m with
  | nil => rfl
  | cons kv rest ih =>
    by_cases hk : kv.1 = k
    · simp [mapDelete, mapKeys, List.filter_cons, hk] at ih ⊢
      exact ih
    · simp [mapDelete, mapKeys, List.filter_cons, hk] at ih ⊢
      exact ih

theorem mapDelete_notmem_keys (k : α) (m : LimiterMap α) :
    k ∉ mapKeys (mapDelete k m) := by
  rw [mapKeys_mapDelete]
  intro hm
  have := (List.mem_filter.mp hm).2
  simp at this

theorem mapDelete_keys_subset (k : α) (m : LimiterMap α) :
    ∀ x ∈ mapKeys (mapDelete k m), x ∈ mapKeys m := by
  rw [mapKeys_mapDelete]
  intro x hx
  exact (List.mem_filter.mp hx).1

theorem mapDelete_keys_nodup (k : α) (m : LimiterMap α)
    (h : (mapKeys m).Nodup) : (mapKeys (mapDelete k m)).Nodup := by
  rw [mapKeys_mapDelete]
  exact h.filter _

theorem mapDelete_mem_keys (k x : α) (m : LimiterMap α)
    (hx : x ∈ mapKeys m) (hne : x ≠ k) : x ∈ mapKeys (mapDelete k m) := by
  rw [mapKeys_mapDelete]
  exact List.mem_filter.mpr ⟨hx, by simp [hne]⟩

theorem mapDelete_length (k : α) (m : LimiterMap α)
    (hmem : k ∈ mapKeys m) (hnd : (mapKeys m).Nodup) :
    (mapDelete k m).length = m.length - 1 := by
  induction m with
  | nil => cases hmem
  | cons kv rest ih =>
    rw [mapKeys_cons] at hmem hnd
    rcases List.nodup_cons.mp hnd with ⟨hk1, hnd2⟩
    by_cases hk : kv.1 = k
    · have hknotin : k ∉ mapKeys rest := hk ▸ hk1
      have hstep : mapDelete k (kv :: rest) = mapDelete k rest := by
        simp [mapDelete, List.filter_cons, hk]
      rw [hstep, mapDelete_eq_self k rest hknotin]
      simp
    · rcases List.mem_cons.mp hmem with he | hmem2
      · exact absurd he.symm hk
      · have hstep : mapDelete k (kv :: rest) = kv :: mapDelete k rest := by
          simp [mapDelete, List.filter_cons, hk]
        rw [hstep]
        simp only [List.length_cons, ih hmem2 hnd2]
        have hpos : 1 ≤ rest.length := by
          have h1 := List.length_pos_of_mem hmem2
          have h2 := mapKeys_length rest
          omega
        omega

theorem mapUpdate_length (ip : α) (lim : RateLimiter) (m : LimiterMap α) :
    (mapUpdate ip lim m).length = m.length := by
  simp [mapUpdate]

theorem mapKeys_mapUpdate (ip : α) (lim : RateLimiter) (m : LimiterMap α) :
    mapKeys (mapUpdate ip lim m) = mapKeys m := by
  induction m with
  | nil => rfl
  | cons kv rest ih =>
    by_cases hk : kv.1 = ip
    · simp [mapUpdate, mapKeys, hk] at ih ⊢
      exact ih
    · simp [mapUpdate, mapKeys, hk] at ih ⊢
      exact ih

theorem sweep_keys_subset : ∀ (ks : List α) (c : Nat) (m : LimiterMap α) (x : α),
    x ∈ mapKeys (sweep ks c m) → x ∈ mapKeys m := by
  intro ks
  induction ks with
  | nil =>
    intro c m x hx
    simpa [sweep] using hx
  | cons k rest ih =>
    intro c m x hx
    simp only [sweep] at hx
    by_cases hc : 5000 < c + 1
    · rw [if_pos hc] at hx
      exact mapDelete_keys_subset k m x hx
    · rw [if_neg hc] at hx
      exact mapDelete_keys_subset k m x (ih (c + 1) (mapDelete k m) x hx)

theorem sweep_keys_nodup : ∀ (ks : List α) (c : Nat) (m : LimiterMap α),
    (mapKeys m).Nodup → (mapKeys (sweep ks c m)).Nodup := by
  intro ks
  induction ks with
  | nil =>
    intro c m h
    simpa [sweep] using h
  | cons k rest ih =>
    intro c m h
    simp only [sweep]
    by_cases hc : 5000 < c + 1
    · rw [if_pos hc]
      exact mapDelete_keys_nodup k m h
    · rw [if_neg hc]
      exact ih (c + 1) (mapDelete k m) (mapDelete_keys_nodup k m h)

theorem sweep_length : ∀ (ks : List α) (c : Nat) (m : LimiterMap α),
    ks.Nodup → (∀ k ∈ ks, k ∈ mapKeys m) → (mapKeys m).Nodup → c ≤ 5000 →
    (sweep ks c m).length = m.length - min (5001 - c) ks.length := by
  intro ks
  induction ks with
  | nil =>
    intro c m _ _ _ _
    simp [sweep]
  | cons k rest ih =>
    intro c m hnd hmem hknd hc
    rcases List.nodup_cons.mp hnd with ⟨hkrest, hndrest⟩
    have hkm : k ∈ mapKeys m := hmem k (by simp)
    have hdel := mapDelete_length k m hkm hknd
    have hpos : 1 ≤ m.length := by
      have h1 := List.length_pos_of_mem hkm
      have h2 := mapKeys_length m
      omega
    simp only [sweep]
    by_cases hc1 : 5000 < c + 1
    · rw [if_pos hc1, hdel]
      simp only [List.length_cons]
      have hceq : c = 5000 := by omega
      subst hceq
      omega
    · rw [if_neg hc1]
      have hrec := ih (c + 1) (mapDelete k m)
        hndrest
        (fun k2 hk2 => mapDelete_mem_keys k k2 m (hmem k2 (by simp [hk2]))
          (fun he => hkrest (he ▸ hk2)))
        (mapDelete_keys_nodup k m hknd)
        (by omega)
      rw [hrec, hdel]
      simp only [List.length_cons]
      omega

theorem getLimiter_fresh_over (ip : α) (rpm : Nat) (now : ℚ) (ord : List α)
    (m : LimiterMap α) (hip : ip ∉ mapKeys m) (hover : 10000 < m.length + 1) :
    getLimiter ip rpm now ord m
      = (NewLimiter ((rpm : ℚ) / 60) rpm now,
         sweep ord 0 (m ++ [(ip, NewLimiter ((rpm : ℚ) / 60) rpm now)])) := by
  have hfind := mapFind_eq_none ip m hip
  simp [getLimiter, hfind, hover]

theorem getLimiter_fresh_under (ip : α) (rpm : Nat) (now : ℚ) (ord : List α)
    (m : LimiterMap α) (hip : ip ∉ mapKeys m) (hunder : ¬(10000 < m.length + 1)) :
    getLimiter ip rpm now ord m
      = (NewLimiter ((rpm : ℚ) / 60) rpm now,
         m ++ [(ip, NewLimiter ((rpm : ℚ) / 60) rpm now)]) := by
  have hfind := mapFind_eq_none ip m hip
  simp [getLimiter, hfind, hunder]

theorem allowCall_fresh_step (ip : α) (rpm : Nat) (now : ℚ) (ord : List α)
    (m : LimiterMap α) (hip : ip ∉ mapKeys m) (hnd : (mapKeys m).Nodup)
    (hord : ord.Perm (mapKeys m ++ [ip])) :
    (allowCall ip rpm now ord m).2.length
      = (if 10000 < m.length + 1 then m.length + 1 - 5001 else m.length + 1) ∧
    (mapKeys (allowCall ip rpm now ord m).2).Nodup ∧
    (∀ k ∈ mapKeys (allowCall ip rpm now ord m).2, k ∈ mapKeys m ∨ k = ip) := by
  have hkeys1 : mapKeys (m ++ [(ip, NewLimiter ((rpm : ℚ) / 60) rpm now)])
      = mapKeys m ++ [ip] := by
    rw [mapKeys_append]
    rfl
  have hnd1 : (mapKeys (m ++ [(ip, NewLimiter ((rpm : ℚ) / 60) rpm now)])).Nodup := by
    rw [hkeys1, List.nodup_append]
    refine ⟨hnd, List.nodup_singleton ip, ?_⟩
    simp only [List.Disjoint, List.mem_singleton]
    exact fun a ha hae => hip (hae ▸ ha)
  have hlen1 : (m ++ [(ip, NewLimiter ((rpm : ℚ) / 60) rpm now)]).length
      = m.length + 1 := by simp
  by_cases hover : 10000 < m.length + 1
  · have heval := getLimiter_fresh_over ip rpm now ord m hip hover
    have hordnd : ord.Nodup := hord.nodup_iff.mpr (hkeys1 ▸ hnd1)
    have hordmem : ∀ k ∈ ord, k ∈ mapKeys (m ++ [(ip, NewLimiter ((rpm : ℚ) / 60) rpm now)]) := by
      intro k hk
      rw [hkeys1]
      exact hord.mem_iff.mp hk
    have hordlen : ord.length = m.length + 1 := by
      rw [hord.length_eq]
      simp only [List.length_append, List.length_singleton]
      rw [mapKeys_length]
    have hslen := sweep_length ord 0 _ hordnd hordmem hnd1 (by omega)
    rw [hlen1, hordlen] at hslen
    refine ⟨?_, ?_, ?_⟩
    · rw [if_pos hover]
      show (mapUpdate ip (limiterAllow (getLimiter ip rpm now ord m).1 now).2
        (getLimiter ip rpm now ord m).2).length = m.length + 1 - 5001
      rw [mapUpdate_length, heval]
      show (sweep ord 0 _).length = m.length + 1 - 5001
      rw [hslen]
      omega
    · show (mapKeys (mapUpdate ip (limiterAllow (getLimiter ip rpm now ord m).1 now).2
        (getLimiter ip rpm now ord m).2)).Nodup
      rw [mapKeys_mapUpdate, heval]
      exact sweep_keys_nodup ord 0 _ hnd1
    · intro k hk
      rw [show (allowCall ip rpm now ord m).2
          = mapUpdate ip (limiterAllow (getLimiter ip rpm now ord m).1 now).2
            (getLimiter ip rpm now ord m).2 from rfl,
        mapKeys_mapUpdate, heval] at hk
      have hsub := sweep_keys_subset ord 0 _ k hk
      rw [hkeys1] at hsub
      rcases List.mem_append.mp hsub with h | h
      · exact Or.inl h
      · exact Or.inr (List.mem_singleton.mp h)
  · have heval := getLimiter_fresh_under ip rpm now ord m hip hover
    refine ⟨?_, ?_, ?_⟩
    · rw [if_neg hover]
      show (mapUpdate ip (limiterAllow (getLimiter ip rpm now ord m).1 now).2
        (getLimiter ip rpm now ord m).2).length = m.length + 1
      rw [mapUpdate_length, heval]
      exact hlen1
    · show (mapKeys (mapUpdate ip (limiterAllow (getLimiter ip rpm now ord m).1 now).2
        (getLimiter ip rpm now ord m).2)).Nodup
      rw [mapKeys_mapUpdate, heval]
      exact hnd1
    · intro k hk
      rw [show (allowCall ip rpm now ord m).2
          = mapUpdate ip (limiterAllow (getLimiter ip rpm now ord m).1 now).2
            (getLimiter ip rpm now ord m).2 from rfl,
        mapKeys_mapUpdate, heval, hkeys1] at hk
      rcases List.mem_append.mp hk with h | h
      · exact Or.inl h
      · exact Or.inr (List.mem_singleton.mp h)

/-! ### Claim C3 -/

theorem allowCall_empty (ip : α) (rpm : Nat) (now : ℚ) (ord : List α) :
    allowCall ip rpm now ord ([] : LimiterMap α)
      = ((limiterAllow (NewLimiter ((rpm : ℚ) / 60) rpm now) now).1,
         [(ip, (limiterAllow (NewLimiter ((rpm : ℚ) / 60) rpm now) now).2)]) := by
  simp [allowCall, getLimiter, mapFind, mapUpdate]

theorem allowCall_singleton (ip : α) (rpm : Nat) (now : ℚ) (ord : List α)
    (b : RateLimiter) :
    allowCall ip rpm now ord [(ip, b)]
      = ((limiterAllow b now).1, [(ip, (limiterAllow b now).2)]) := by
  simp [allowCall, getLimiter, mapFind, mapUpdate]

theorem allowSeq_singleton (ip : α) (rpm : Nat) :
    ∀ (ts : List ℚ) (b : RateLimiter),
      allowSeq ip rpm ts [(ip, b)] = bucketSeq b ts := by
  intro ts
  induction ts with
  | nil => intro b; rfl
  | cons t ts ih =>
    intro b
    rw [show allowSeq ip rpm (t :: ts) [(ip, b)]
        = (allowCall ip rpm t [] [(ip, b)]).1
          :: allowSeq ip rpm ts (allowCall ip rpm t [] [(ip, b)]).2 from rfl,
      allowCall_singleton, bucketSeq]
    exact congrArg _ (ih _)

theorem limiterAllow_true' (li : ℚ) (bu : Nat) (tok la now : ℚ)
    (hmono : ¬(now < la)) (hcap : ¬((bu : ℚ) < tok + (now - la) * li))
    (hone : 1 ≤ tok + (now - la) * li) :
    limiterAllow ⟨li, bu, tok, la⟩ now
      = (true, ⟨li, bu, tok + (now - la) * li - 1, now⟩) := by
  simp [limiterAllow, advanceTokens, hmono, hcap, hone]

theorem limiterAllow_false' (li : ℚ) (bu : Nat) (tok la now : ℚ)
    (hmono : ¬(now < la)) (hcap : ¬((bu : ℚ) < tok + (now - la) * li))
    (hlt : ¬(1 ≤ tok + (now - la) * li)) :
    limiterAllow ⟨li, bu, tok, la⟩ now = (false, ⟨li, bu, tok, la⟩) := by
  simp [limiterAllow, advanceTokens, hmono, hcap, hlt]

theorem limiterAllow_fst_true (li : ℚ) (bu : Nat) (tok la now : ℚ)
    (hmono : ¬(now < la)) (hone : 1 ≤ tok + (now - la) * li)
    (hbu : 1 ≤ (bu : ℚ)) :
    (limiterAllow ⟨li, bu, tok, la⟩ now).1 = true := by
  simp only [limiterAllow, advanceTokens]
  by_cases hcap : (bu : ℚ) < tok + (now - la) * li
  · simp [hmono, hcap, hbu]
  · simp [hmono, hcap, hone]

/-- C3: with rate 5 per minute and burst 5, any six admission checks
from one address within one second yield true for the first five and
false for the sixth; after at least 60 more seconds with no calls the
next check yields true. -/
theorem C3_token_bucket_admission (t1 t2 t3 t4 t5 t6 t7 : ℚ)
    (h12 : t1 ≤ t2) (h23 : t2 ≤ t3) (h34 : t3 ≤ t4) (h45 : t4 ≤ t5)
    (h56 : t5 ≤ t6) (hwin : t6 ≤ t1 + 1) (hgap : t6 + 60 ≤ t7) :
    allowSeq (0 : Nat) 5 [t1, t2, t3, t4, t5, t6, t7] []
      = [true, true, true, true, true, false, true] := by
  have hr : ((5 : Nat) : ℚ) / 60 = 1 / 12 := by norm_num
  have hNew : NewLimiter (1 / 12 : ℚ) 5 t1 = (⟨1 / 12, 5, 5, t1⟩ : RateLimiter) := by
    simp [NewLimiter]
  have c1 : limiterAllow ⟨1 / 12, 5, 5, t1⟩ t1 = (true, ⟨1 / 12, 5, 4, t1⟩) := by
    rw [limiterAllow_true' (1 / 12) 5 5 t1 t1 (by linarith) (by push_cast; linarith)
      (by linarith)]
    norm_num
  have c2 : limiterAllow ⟨1 / 12, 5, 4, t1⟩ t2
      = (true, ⟨1 / 12, 5, 3 + (t2 - t1) * (1 / 12), t2⟩) := by
    rw [limiterAllow_true' (1 / 12) 5 4 t1 t2 (by linarith) (by push_cast; linarith)
      (by linarith)]
    rw [show (4 : ℚ) + (t2 - t1) * (1 / 12) - 1 = 3 + (t2 - t1) * (1 / 12) from by ring]
  have c3 : limiterAllow ⟨1 / 12, 5, 3 + (t2 - t1) * (1 / 12), t2⟩ t3
      = (true, ⟨1 / 12, 5, 2 + (t3 - t1) * (1 / 12), t3⟩) := by
    rw [limiterAllow_true' (1 / 12) 5 (3 + (t2 - t1) * (1 / 12)) t2 t3 (by linarith)
      (by push_cast; linarith) (by linarith)]
    rw [show (3 : ℚ) + (t2 - t1) * (1 / 12) + (t3 - t2) * (1 / 12) - 1
        = 2 + (t3 - t1) * (1 / 12) from by ring]
  have c4 : limiterAllow ⟨1 / 12, 5, 2 + (t3 - t1) * (1 / 12), t3⟩ t4
      = (true, ⟨1 / 12, 5, 1 + (t4 - t1) * (1 / 12), t4⟩) := by
    rw [limiterAllow_true' (1 / 12) 5 (2 + (t3 - t1) * (1 / 12)) t3 t4 (by linarith)
      (by push_cast; linarith) (by linarith)]
    rw [show (2 : ℚ) + (t3 - t1) * (1 / 12) + (t4 - t3) * (1 / 12) - 1
        = 1 + (t4 - t1) * (1 / 12) from by ring]
  have c5 : limiterAllow ⟨1 / 12, 5, 1 + (t4 - t1) * (1 / 12), t4⟩ t5
      = (true, ⟨1 / 12, 5, (t5 - t1) * (1 / 12), t5⟩) := by
    rw [limiterAllow_true' (1 / 12) 5 (1 + (t4 - t1) * (1 / 12)) t4 t5 (by linarith)
      (by push_cast; linarith) (by linarith)]
    rw [show (1 : ℚ) + (t4 - t1) * (1 / 12) + (t5 - t4) * (1 / 12) - 1
        = (t5 - t1) * (1 / 12) from by ring]
  have c6 : limiterAllow ⟨1 / 12, 5, (t5 - t1) * (1 / 12), t5⟩ t6
      = (false, ⟨1 / 12, 5, (t5 - t1) * (1 / 12), t5⟩) := by
    rw [limiterAllow_false' (1 / 12) 5 ((t5 - t1) * (1 / 12)) t5 t6 (by linarith)
      (by push_cast; linarith) (by linarith)]
  have c7 : (limiterAllow ⟨1 / 12, 5, (t5 - t1) * (1 / 12), t5⟩ t7).1 = true := by
    exact limiterAllow_fst_true (1 / 12) 5 ((t5 - t1) * (1 / 12)) t5 t7 (by linarith)
      (by linarith) (by push_cast; linarith)
  have hb : allowSeq (0 : Nat) 5 [t1, t2, t3, t4, t5, t6, t7] []
      = (limiterAllow ⟨1 / 12, 5, 5, t1⟩ t1).1
        :: bucketSeq (limiterAllow ⟨1 / 12, 5, 5, t1⟩ t1).2 [t2, t3, t4, t5, t6, t7] := by
    rw [show allowSeq (0 : Nat) 5 [t1, t2, t3, t4, t5, t6, t7] ([] : LimiterMap Nat)
        = (allowCall 0 5 t1 [] []).1
          :: allowSeq 0 5 [t2, t3, t4, t5, t6, t7] (allowCall 0 5 t1 [] []).2 from rfl,
      allowCall_empty, hr, hNew, allowSeq_singleton]
  rw [hb]
  simp only [bucketSeq, c1, c2, c3, c4, c5, c6, c7]

/-- Witness for C3 at the concrete times 0 for the six calls in the
first second and 60 for the call after the pause. -/
theorem C3_token_bucket_admission_witness :
    (0 : ℚ) ≤ 0 ∧ (0 : ℚ) ≤ 0 + 1 ∧ (0 : ℚ) + 60 ≤ 60 ∧
    allowSeq (0 : Nat) 5 [0, 0, 0, 0, 0, 0, 60] []
      = [true, true, true, true, true, false, true] :=
  ⟨le_refl 0, by norm_num, by norm_num,
   C3_token_bucket_admission 0 0 0 0 0 0 60 (le_refl 0) (le_refl 0) (le_refl 0)
     (le_refl 0) (le_refl 0) (by norm_num) (by norm_num)⟩

/-! ### Runs of fresh addresses -/

theorem runFresh_inv (n : Nat) :
    (mapKeys (runFresh n)).Nodup ∧ ∀ k ∈ mapKeys (runFresh n), k < n := by
  induction n with
  | zero => exact ⟨by simp [runFresh, mapKeys], by simp [runFresh, mapKeys]⟩
  | succ n ih =>
    have hip : n ∉ mapKeys (runFresh n) :=
      fun hm => absurd (ih.2 n hm) (lt_irrefl n)
    have hstep := allowCall_fresh_step n 5 0 (mapKeys (runFresh n) ++ [n])
      (runFresh n) hip ih.1 (List.Perm.refl _)
    rw [show runFresh (n + 1)
      = (allowCall n 5 0 (mapKeys (runFresh n) ++ [n]) (runFresh n)).2 from rfl]
    refine ⟨hstep.2.1, ?_⟩
    intro k hk
    rcases hstep.2.2 k hk with h | h
    · exact Nat.lt_succ_of_lt (ih.2 k h)
    · exact h ▸ Nat.lt_succ_self n

theorem runFresh_succ_length (n : Nat) :
    (runFresh (n + 1)).length
      = (if 10000 < (runFresh n).length + 1 then (runFresh n).length + 1 - 5001
         else (runFresh n).length + 1) := by
  have hinv := runFresh_inv n
  have hip : n ∉ mapKeys (runFresh n) :=
    fun hm => absurd (hinv.2 n hm) (lt_irrefl n)
  exact (allowCall_fresh_step n 5 0 _ _ hip hinv.1 (List.Perm.refl _)).1

theorem runFresh_le (n : Nat) : (runFresh n).length ≤ 10000 := by
  induction n with
  | zero => simp [runFresh]
  | succ n ih =>
    rw [runFresh_succ_length n]
    by_cases h : 10000 < (runFresh n).length + 1
    · rw [if_pos h]
      omega
    · rw [if_neg h]
      omega

theorem runFresh_length_eq (n : Nat) (h : n ≤ 10000) : (runFresh n).length = n := by
  induction n with
  | zero => simp [runFresh]
  | succ n ih =>
    have ihh := ih (by omega)
    rw [runFresh_succ_length n, ihh, if_neg (by omega)]

theorem runFresh_beyond : ∀ k : Nat, k ≤ 5000 →
    (runFresh (10001 + k)).length = 5000 + k := by
  intro k
  induction k with
  | zero =>
    intro _
    rw [show (10001 : Nat) + 0 = 10000 + 1 from rfl, runFresh_succ_length 10000,
      runFresh_length_eq 10000 (le_refl _), if_pos (by omega)]
  | succ k ih =>
    intro hk
    have ihh := ih (by omega)
    rw [show 10001 + (k + 1) = (10001 + k) + 1 from by omega,
      runFresh_succ_length, ihh, if_neg (by omega)]
    omega

/-! ### Claim C4 -/

/-- C4 counterexample: after 15001 admission checks from 15001 pairwise
distinct addresses with no explicit removals, the limiter map tracks
exactly 10000 addresses, which is not strictly less than the high-water
threshold 10000, refuting the final-count clause of the claim. -/
theorem C4_eviction_bound_counterexample :
    (runFresh 15001).length = 10000 ∧ ¬((runFresh 15001).length < 10000) := by
  have h := runFresh_beyond 5000 (le_refl _)
  norm_num at h
  exact ⟨h, by rw [h]; omega⟩

/-- C4 amended: whenever a bucket creation pushes the tracked count
over the threshold 10000 (that is, the map held 10000 entries), the
sweep removes 5001 entries and exactly 5000 remain, half the
threshold; and after every run of admission checks from pairwise
distinct fresh addresses the tracked count is at most 10000. -/
theorem C4_eviction_bound_amended :
    (∀ (m : LimiterMap α) (ip : α) (rpm : Nat) (now : ℚ) (ord : List α),
      ip ∉ mapKeys m → (mapKeys m).Nodup → ord.Perm (mapKeys m ++ [ip]) →
      m.length = 10000 → (allowCall ip rpm now ord m).2.length = 5000) ∧
    (∀ m2 : LimiterMap α, DistinctRun ([] : LimiterMap α) m2 → m2.length ≤ 10000) := by
  constructor
  · intro m ip rpm now ord hip hnd hord hlen
    rw [(allowCall_fresh_step ip rpm now ord m hip hnd hord).1, hlen]
    norm_num
  · have hgen : ∀ (m m2 : LimiterMap α), DistinctRun m m2 →
        (mapKeys m).Nodup → m.length ≤ 10000 → (mapKeys m2).Nodup ∧ m2.length ≤ 10000 := by
      intro m m2 hrun
      induction hrun with
      | refl m => exact fun hnd hlen => ⟨hnd, hlen⟩
      | step m m2 ip rpm now ord hip hord hrun ih =>
        intro hnd hlen
        have hstep := allowCall_fresh_step ip rpm now ord m hip hnd hord
        apply ih hstep.2.1
        rw [hstep.1]
        by_cases h : 10000 < m.length + 1
        · rw [if_pos h]
          omega
        · rw [if_neg h]
          omega
    intro m2 hrun
    exact (hgen [] m2 hrun (by simp [mapKeys]) (by simp)).2

/-- Witness for C4 amended: the threshold-crossing call on the map of
10000 fresh addresses leaves 5000 entries, and the empty run keeps the
empty map under the threshold. -/
theorem C4_eviction_bound_amended_witness :
    ((10000 : Nat) ∉ mapKeys (runFresh 10000) ∧ (mapKeys (runFresh 10000)).Nodup ∧
      (runFresh 10000).length = 10000 ∧
      (allowCall 10000 5 0 (mapKeys (runFresh 10000) ++ [10000])
        (runFresh 10000)).2.length = 5000) ∧
    (DistinctRun ([] : LimiterMap Nat) [] ∧ ([] : LimiterMap Nat).length ≤ 10000) := by
  have hinv := runFresh_inv 10000
  have hip : (10000 : Nat) ∉ mapKeys (runFresh 10000) :=
    fun hm => absurd (hinv.2 10000 hm) (lt_irrefl 10000)
  have hlen := runFresh_length_eq 10000 (le_refl _)
  exact ⟨⟨hip, hinv.1, hlen,
    C4_eviction_bound_amended.1 (runFresh 10000) 10000 5 0 _ hip hinv.1
      (List.Perm.refl _) hlen⟩,
    ⟨DistinctRun.refl [], C4_eviction_bound_amended.2 [] (DistinctRun.refl [])⟩⟩

theorem getLimiter_fst_fresh (ip : α) (rpm : Nat) (now : ℚ) (ord : List α)
    (m : LimiterMap α) (hip : ip ∉ mapKeys m) :
    (getLimiter ip rpm now ord m).1 = NewLimiter ((rpm : ℚ) / 60) rpm now := by
  by_cases h : 10000 < m.length + 1
  · rw [getLimiter_fresh_over ip rpm now ord m hip h]
  · rw [getLimiter_fresh_under ip rpm now ord m hip h]

/-! ### Claim C10 -/

/-- C10: when a bucket creation on a full map of 10000 tracked
addresses triggers the sweep, there is a sweep order, a permutation of
the keys of the map after the insertion, under which the entry just
created for the requesting address is itself deleted: getLimiter still
returns the freshly created bucket, the address is no longer tracked,
and the next call from the same address creates a fresh bucket with a
full burst. -/
theorem C10_eviction_deletes_fresh_entry :
    ∀ (m : LimiterMap α) (ip : α) (rpm : Nat) (now : ℚ),
      (mapKeys m).Nodup → m.length = 10000 → ip ∉ mapKeys m →
      ∃ ord, ord.Perm (mapKeys (m ++ [(ip, NewLimiter ((rpm : ℚ) / 60) rpm now)])) ∧
        (getLimiter ip rpm now ord m).1 = NewLimiter ((rpm : ℚ) / 60) rpm now ∧
        ip ∉ mapKeys (getLimiter ip rpm now ord m).2 ∧
        ∀ now2 ord2, (getLimiter ip rpm now2 ord2 (getLimiter ip rpm now ord m).2).1
          = NewLimiter ((rpm : ℚ) / 60) rpm now2 := by
  intro m ip rpm now hnd hlen hip
  have hover : 10000 < m.length + 1 := by omega
  have heval := getLimiter_fresh_over ip rpm now (ip :: mapKeys m) m hip hover
  have hnotin : ip ∉ mapKeys (getLimiter ip rpm now (ip :: mapKeys m) m).2 := by
    rw [heval]
    show ip ∉ mapKeys (sweep (ip :: mapKeys m) 0
      (m ++ [(ip, NewLimiter ((rpm : ℚ) / 60) rpm now)]))
    have hs : sweep (ip :: mapKeys m) 0
        (m ++ [(ip, NewLimiter ((rpm : ℚ) / 60) rpm now)])
        = sweep (mapKeys m) 1
          (mapDelete ip (m ++ [(ip, NewLimiter ((rpm : ℚ) / 60) rpm now)])) := by
      simp [sweep]
    rw [hs]
    intro hm2
    exact mapDelete_notmem_keys ip _ (sweep_keys_subset (mapKeys m) 1 _ ip hm2)
  refine ⟨ip :: mapKeys m, ?_, ?_, hnotin, ?_⟩
  · have hk : mapKeys (m ++ [(ip, NewLimiter ((rpm : ℚ) / 60) rpm now)])
        = mapKeys m ++ [ip] := by
      rw [mapKeys_append]
      rfl
    rw [hk]
    exact @List.perm_append_comm _ [ip] (mapKeys m)
  · rw [heval]
  · intro now2 ord2
    exact getLimiter_fst_fresh ip rpm now2 ord2 _ hnotin

/-- Witness for C10 on the concrete full map of the 10000 fresh
addresses 0 to 9999, with address 10000 arriving next. -/
theorem C10_eviction_deletes_fresh_entry_witness :
    (mapKeys (runFresh 10000)).Nodup ∧ (runFresh 10000).length = 10000 ∧
    (10000 : Nat) ∉ mapKeys (runFresh 10000) ∧
    ∃ ord, ord.Perm (mapKeys (runFresh 10000
        ++ [(10000, NewLimiter (((5 : Nat) : ℚ) / 60) 5 0)])) ∧
      (getLimiter 10000 5 0 ord (runFresh 10000)).1
        = NewLimiter (((5 : Nat) : ℚ) / 60) 5 0 ∧
      (10000 : Nat) ∉ mapKeys (getLimiter 10000 5 0 ord (runFresh 10000)).2 ∧
      ∀ now2 ord2, (getLimiter 10000 5 now2 ord2
          (getLimiter 10000 5 0 ord (runFresh 10000)).2).1
        = NewLimiter (((5 : Nat) : ℚ) / 60) 5 now2 := by
  have hinv := runFresh_inv 10000
  have hip : (10000 : Nat) ∉ mapKeys (runFresh 10000) :=
    fun hm => absurd (hinv.2 10000 hm) (lt_irrefl 10000)
  have hlen := runFresh_length_eq 10000 (le_refl _)
  exact ⟨hinv.1, hlen, hip,
    C10_eviction_deletes_fresh_entry (runFresh 10000) 10000 5 0 hinv.1 hlen hip⟩

end LastPersonal
